import Mathlib

/-!
Verification development for the mdfried streaming document reconciliation
engine.  The definitions below are a shallow embedding of the Rust code in
`src/widget_sources.rs` and `src/model.rs`: the ordered collection of
render-units (`WidgetSources`), its `push` / `update` / `replace` /
`trim_last_source` / `get_y` operations, the cursor search functions
(`find_first_cursor`, `find_next_cursor`), the generation tracker
(`DocumentId`) with the event-gating step of `Model::process_events`, and the
viewport arithmetic of `Model::scroll_by`.

Machine-integer conventions: `u16` quantities (heights, scroll) are embedded
as `Nat`; `i16` quantities as `Int` with explicit saturation where the Rust
code uses saturating arithmetic.  The opaque `ratatui` `Protocol` handle is
embedded as a `Nat` token (the code only moves it around and compares the
containing unit), and a styled `ratatui` `Line` as its text `String` (the
code never inspects the styling in the operations verified here).
-/

namespace Mdfried

/-- Sub-range annotation on a text line (`LineExtra` in widget_sources.rs).
`Link(url, start, end)` or `SearchMatch(start, end, matched text)`. -/
inductive LineExtra : Type where
  | Link : String → Nat → Nat → LineExtra
  | SearchMatch : Nat → Nat → String → LineExtra
deriving DecidableEq

/-- Payload of a render-unit (`WidgetSourceData` in widget_sources.rs).  The
`Protocol` handle of an `Image` is embedded as an opaque `Nat` token; the
styled `Line` content as its plain text. -/
inductive WidgetSourceData : Type where
  | Image : String → Nat → WidgetSourceData
  | BrokenImage : String → String → WidgetSourceData
  | Line : String → List LineExtra → WidgetSourceData
  | Header : String → Nat → WidgetSourceData
deriving DecidableEq

/-- A render-unit (`WidgetSource` in widget_sources.rs): unit id, height in
terminal rows, and payload. -/
structure WidgetSource : Type where
  id : Nat
  height : Nat
  data : WidgetSourceData
deriving DecidableEq

/-- The Reconciliation Store (`WidgetSources` in widget_sources.rs): the live
ordered sequence of render-units plus the side-cache `updated_images` of
evicted image payloads, each stored as `(height, url, protocol token)`. -/
structure WidgetSources : Type where
  sources : List WidgetSource
  updated_images : List (Nat × String × Nat)
deriving DecidableEq

/-- Modelled from the spec: the cursor pointer of `cursor.rs` (absent from
the sources), `{id: UnitId, index: position within that unit's Extras}`,
exactly as described in section 3 of the spec and used by the tests in
model.rs (`CursorPointer { id, index }`). -/
structure CursorPointer : Type where
  id : Nat
  index : Nat
deriving DecidableEq

/-- Search direction (`FindMode` in widget_sources.rs). -/
inductive FindMode : Type where
  | Prev
  | Next
deriving DecidableEq

/-- What kind of extra a cursor search looks for (`FindTarget`). -/
inductive FindTarget : Type where
  | Link
  | Search
deriving DecidableEq

/-- `FindTarget::matches` in widget_sources.rs. -/
def FindTarget.matches : FindTarget → LineExtra → Bool
  | FindTarget.Link, LineExtra.Link _ _ _ => true
  | FindTarget.Link, _ => false
  | FindTarget.Search, LineExtra.SearchMatch _ _ _ => true
  | FindTarget.Search, _ => false

/-- Generation identifier (`DocumentId` in model.rs): `id` is the document
sequence number, `reload_id` the reparse revision. -/
structure DocumentId : Type where
  id : Nat
  reload_id : Nat
deriving DecidableEq

/-- `DocumentId::is_same_document`: sequence equality. -/
def DocumentId.is_same_document (self other : DocumentId) : Bool :=
  self.id == other.id

/-- `DocumentId::open`: next sequence, revision zero. -/
def DocumentId.openDoc (self : DocumentId) : DocumentId :=
  ⟨self.id + 1, 0⟩

/-- `DocumentId::reload`: same sequence, next revision. -/
def DocumentId.reloadDoc (self : DocumentId) : DocumentId :=
  ⟨self.id, self.reload_id + 1⟩

/-- `DocumentId::is_first_load`: revision is zero. -/
def DocumentId.is_first_load (self : DocumentId) : Bool :=
  self.reload_id == 0

/-- `WidgetSources::push`: appends the unit (the Rust `debug_assert!` on id
uniqueness is a precondition, not behavior). -/
def WidgetSources.push (ws : WidgetSources) (source : WidgetSource) : WidgetSources :=
  { ws with sources := ws.sources ++ [source] }

/-- The contiguous prefix of entries whose id equals `k` (the extension part
of the range scan in `WidgetSources::update`). -/
def takeRun (k : Nat) : List WidgetSource → List WidgetSource
  | [] => []
  | s :: rest => if s.id = k then s :: takeRun k rest else []

/-- The remainder after the contiguous prefix of entries with id `k`. -/
def dropRun (k : Nat) : List WidgetSource → List WidgetSource
  | [] => []
  | s :: rest => if s.id = k then dropRun k rest else s :: rest

/-- The range scan of `WidgetSources::update`: locate the first maximal
contiguous run of entries with id `k`, returned as the decomposition
(prefix, run, suffix); `none` when no entry has id `k`.  This is the
index pair `(start, end)` the Rust loop computes, in decomposition form. -/
def splitRun (k : Nat) : List WidgetSource → Option (List WidgetSource × List WidgetSource × List WidgetSource)
  | [] => none
  | s :: rest =>
    if s.id = k then
      some ([], s :: takeRun k rest, dropRun k rest)
    else
      (splitRun k rest).map (fun pr => (s :: pr.1, pr.2.1, pr.2.2))

/-- The side-cache entry of an evicted unit, when its payload is an `Image`
(the `if let WidgetSourceData::Image` filter on the splice result). -/
def imgOf (s : WidgetSource) : Option (Nat × String × Nat) :=
  match s.data with
  | WidgetSourceData.Image url proto => some (s.height, url, proto)
  | _ => none

/-- `WidgetSources::update`: replace the first maximal run of entries whose
id equals the first update's id by `updates`, pushing evicted `Image`
payloads onto the side-cache; if no run exists, append when the last entry's
id is smaller than the update id, and no-op otherwise (also on an empty
update list and on an empty store). -/
def WidgetSources.update (ws : WidgetSources) (updates : List WidgetSource) : WidgetSources :=
  match updates with
  | [] => ws
  | first :: _ =>
    match splitRun first.id ws.sources with
    | some (pre, run, post) =>
      { sources := pre ++ updates ++ post,
        updated_images := ws.updated_images ++ run.filterMap imgOf }
    | none =>
      match ws.sources.getLast? with
      | some last =>
        if last.id < first.id then { ws with sources := ws.sources ++ updates } else ws
      | none => ws

/-- The source key of a unit when its payload is an `Image`. -/
def imageUrl (s : WidgetSource) : Option String :=
  match s.data with
  | WidgetSourceData.Image url _ => some url
  | _ => none

/-- The one-row placeholder line `![Replacing...](url)` that
`WidgetSources::replace` swaps in for a removed image. -/
def replacingPlaceholder (id : Nat) (url : String) : WidgetSource :=
  ⟨id, 1, WidgetSourceData.Line ("![Replacing...](" ++ url ++ ")") []⟩

/-- The live-list scan of `WidgetSources::replace`: find the first entry with
id at least `k` whose payload is an `Image` with source key `url`, swap it
in place for the placeholder, and return the removed unit with the updated
list. -/
def replaceAux (k : Nat) (url : String) : List WidgetSource → Option (WidgetSource × List WidgetSource)
  | [] => none
  | s :: rest =>
    if k ≤ s.id ∧ imageUrl s = some url then
      some (s, replacingPlaceholder s.id url :: rest)
    else
      (replaceAux k url rest).map (fun pr => (pr.1, s :: pr.2))

/-- The side-cache fallback of `WidgetSources::replace`: remove and return
the first cache entry whose stored url equals `url`. -/
def cacheExtract (url : String) : List (Nat × String × Nat) → Option ((Nat × String × Nat) × List (Nat × String × Nat))
  | [] => none
  | c :: rest =>
    if c.2.1 = url then some (c, rest)
    else (cacheExtract url rest).map (fun pr => (pr.1, c :: pr.2))

/-- `WidgetSources::replace(id, url)`: returns the removed image (if any)
together with the store after the call. -/
def WidgetSources.replace (ws : WidgetSources) (k : Nat) (url : String) :
    Option WidgetSource × WidgetSources :=
  match replaceAux k url ws.sources with
  | some (removed, sources') => (some removed, { ws with sources := sources' })
  | none =>
    match cacheExtract url ws.updated_images with
    | some (c, rest) =>
      (some ⟨0, c.1, WidgetSourceData.Image c.2.1 c.2.2⟩, { ws with updated_images := rest })
    | none => (none, ws)

/-- `Iterator::position` over the entry list: index of the first entry with
id `k` (the `position` call of `WidgetSources::trim_last_source`). -/
def posIdxId (k : Nat) : List WidgetSource → Option Nat
  | [] => none
  | s :: rest => if s.id = k then some 0 else (posIdxId k rest).map (· + 1)

/-- `WidgetSources::trim_last_source`: clear the side-cache; when a last id
is given and the current last entry does not already carry it, truncate the
live list just after the first entry with that id (no truncation when the id
is absent). -/
def WidgetSources.trim_last_source (ws : WidgetSources) (last_source_id : Option Nat) : WidgetSources :=
  match last_source_id with
  | none => ⟨ws.sources, []⟩
  | some k =>
    if ws.sources.getLast?.map WidgetSource.id = some k then ⟨ws.sources, []⟩
    else
      match posIdxId k ws.sources with
      | some idx => ⟨ws.sources.take (idx + 1), []⟩
      | none => ⟨ws.sources, []⟩

/-- `WidgetSources::get_y`: sum of the heights of all entries strictly before
the first entry with the given id (the whole list when the id is absent).
The Rust accumulator is an `i16`; the embedding uses `Nat` and the theorems
carry the range hypothesis keeping the two exact. -/
def WidgetSources.get_y_list (k : Nat) : List WidgetSource → Nat
  | [] => 0
  | s :: rest => if s.id = k then 0 else s.height + WidgetSources.get_y_list k rest

/-- `WidgetSources::get_y` on the store. -/
def WidgetSources.get_y (ws : WidgetSources) (k : Nat) : Nat :=
  WidgetSources.get_y_list k ws.sources

/-- Total rendered height: `Model::total_lines`, the sum of all unit
heights. -/
def sumHeights (l : List WidgetSource) : Nat :=
  (l.map WidgetSource.height).sum

/-- The `locate` closure of `WidgetSources::find_first_cursor`: the pointer
to the first extra of a `Line` entry matched by the target. -/
def locate (target : FindTarget) (s : WidgetSource) : Option CursorPointer :=
  match s.data with
  | WidgetSourceData.Line _ extras =>
    (extras.findIdx? (fun e => target.matches e)).map (fun i => ⟨s.id, i⟩)
  | _ => none

/-- The scan loop of `WidgetSources::find_first_cursor`: `first` records the
first match among the entries lying entirely above the scroll row, `acc` the
cumulative height so far; the first match of an entry at or below the scroll
row is returned directly. -/
def findFirstAux (target : FindTarget) (scroll : Nat) :
    List WidgetSource → Option CursorPointer → Nat → Option CursorPointer
  | [], first, _ => first
  | s :: rest, first, acc =>
    if acc + s.height < scroll + 1 then
      findFirstAux target scroll rest (if first.isNone then locate target s else first) (acc + s.height)
    else
      match locate target s with
      | none => findFirstAux target scroll rest first (acc + s.height)
      | some p => some p

/-- `WidgetSources::find_first_cursor` over the entry list. -/
def find_first_cursor (l : List WidgetSource) (target : FindTarget) (scroll : Nat) :
    Option CursorPointer :=
  findFirstAux target scroll l none 0

/-- The first match over a list of entries, entry order then extra order
(specification-side helper for the first-match wrap claim). -/
def firstMatch (target : FindTarget) : List WidgetSource → Option CursorPointer
  | [] => none
  | s :: rest =>
    match locate target s with
    | some p => some p
    | none => firstMatch target rest

/-- Number of leading entries lying entirely above the scroll row, i.e. whose
cumulative height (from accumulator `acc`) stays at most `scroll`. -/
def countAbove (scroll : Nat) (acc : Nat) : List WidgetSource → Nat
  | [] => 0
  | s :: rest =>
    if acc + s.height < scroll + 1 then countAbove scroll (acc + s.height) rest + 1 else 0

/-- Written from the spec sentence for `find_first_cursor`: the first match
at or after the row corresponding to `scroll`, falling back to the first
match in the whole collection. -/
def specFirstCursor (target : FindTarget) (scroll : Nat) (l : List WidgetSource) :
    Option CursorPointer :=
  match firstMatch target (l.drop (countAbove scroll 0 l)) with
  | some p => some p
  | none => firstMatch target l

/-- `WidgetSources::line_extras_to_cursor_pointers` in `Next` mode: the
pointers of the matching extras of one entry, in extra order. -/
def lineCursors (target : FindTarget) (s : WidgetSource) : List CursorPointer :=
  match s.data with
  | WidgetSourceData.Line _ extras =>
    ((extras.enum).filter (fun p => target.matches p.2)).map (fun p => ⟨s.id, p.1⟩)
  | _ => []

/-- `WidgetSources::line_extras_to_cursor_pointers` in `Prev` mode: the
enumerated extras are reversed before filtering. -/
def lineCursorsRev (target : FindTarget) (s : WidgetSource) : List CursorPointer :=
  match s.data with
  | WidgetSourceData.Line _ extras =>
    ((extras.enum).reverse.filter (fun p => target.matches p.2)).map (fun p => ⟨s.id, p.1⟩)
  | _ => []

/-- `WidgetSources::flatten_sources` in `Next` mode: all match pointers in
forward document order. -/
def flatCursors (target : FindTarget) : List WidgetSource → List CursorPointer
  | [] => []
  | s :: rest => lineCursors target s ++ flatCursors target rest

/-- `WidgetSources::flatten_sources` in `Prev` mode: the entries are
traversed in reverse order, each entry's extras reversed. -/
def flatCursorsRev (target : FindTarget) : List WidgetSource → List CursorPointer
  | [] => []
  | s :: rest => flatCursorsRev target rest ++ lineCursorsRev target s

/-- `Iterator::position` over a pointer list (the `iter2.position` call of
`WidgetSources::find_next_cursor`). -/
def posIdx (c : CursorPointer) : List CursorPointer → Option Nat
  | [] => none
  | x :: rest => if x = c then some 0 else (posIdx c rest).map (· + 1)

/-- The modulo stepping of `WidgetSources::find_next_cursor` over the
flattened pointer list: position of `current`, total count, index
`(curr + steps) % total`; when `current` is absent, the first pointer of the
list.  `steps` is a count of forward steps (the Rust `steps as usize` for a
non-negative `i16`). -/
def cyclicStep (flat : List CursorPointer) (current : CursorPointer) (steps : Nat) :
    Option CursorPointer :=
  match posIdx current flat with
  | none => flat.head?
  | some curr =>
    let total := curr + 1 + (flat.length - (curr + 1))
    let index := (curr + steps) % total
    if index = curr then some current else flat.get? index

/-- `WidgetSources::find_next_cursor` over the entry list. -/
def find_next_cursor (l : List WidgetSource) (current : CursorPointer)
    (mode : FindMode) (target : FindTarget) (steps : Nat) : Option CursorPointer :=
  match mode with
  | FindMode.Next => cyclicStep (flatCursors target l) current steps
  | FindMode.Prev => cyclicStep (flatCursorsRev target l) current steps

/-- `n` successive single-step `find_next_cursor` calls, chained through
`Option` (a `none` anywhere aborts the chain). -/
def stepN (l : List WidgetSource) (mode : FindMode) (target : FindTarget) :
    Nat → CursorPointer → Option CursorPointer
  | 0, p => some p
  | n + 1, p =>
    match find_next_cursor l p mode target 1 with
    | some q => stepN l mode target n q
    | none => none

/-- The events of `Model::process_events` (the `Event` enum of main.rs);
payload strings that the gating never inspects are kept. -/
inductive Event : Type where
  | NewDocument : DocumentId → Event
  | ParseDone : DocumentId → Option Nat → Event
  | Parsed : DocumentId → WidgetSource → Event
  | ParseImage : DocumentId → Nat → String → String → String → Event
  | ParseHeader : DocumentId → Nat → Nat → String → Event
  | Update : DocumentId → List WidgetSource → Event
  | FileChanged : Event

/-- The generation stamp checked by the gating step of
`Model::process_events`; `none` for the two ungated events. -/
def eventGatedDoc : Event → Option DocumentId
  | Event.ParseDone d _ => some d
  | Event.Parsed d _ => some d
  | Event.ParseImage d _ _ _ _ => some d
  | Event.ParseHeader d _ _ _ => some d
  | Event.Update d _ => some d
  | _ => none

/-- The model state touched by `Model::process_events` and
`Model::scroll_by`: the store, the scroll offset (`u16`, embedded as `Nat`),
the page-multiplier (`i16`, embedded as `Int`), the current generation, and
the inner screen height.  The inner height stands for
`self.inner_height(self.screen_size.height)` (config.rs is absent from the
sources; the spec calls it the inner screen height). -/
structure Model : Type where
  scroll : Nat
  scroll_by_mul : Int
  sources : WidgetSources
  innerH : Nat
  documentId : DocumentId
deriving DecidableEq

/-- `Model::total_lines`: the sum of all unit heights. -/
def Model.total_lines (m : Model) : Nat :=
  sumHeights m.sources.sources

/-- Saturation of an `i16` result (`i16::saturating_mul`). -/
def satI16 (x : Int) : Int :=
  max (-32768) (min 32767 x)

/-- `u16::saturating_add_signed`: add an `i16` to a `u16`, clamped to
`[0, 65535]`. -/
def satAddSignedU16 (u : Nat) (i : Int) : Nat :=
  (min 65535 (max 0 ((u : Int) + i))).toNat

/-- `Model::scroll_by`: multiply the delta by the pending multiplier
(saturating `i16`), reset the multiplier, and clamp the new scroll value to
at most `total_lines - inner_height + 1`. -/
def Model.scroll_by (m : Model) (lines : Int) : Model :=
  let lines' := satI16 (lines * (max m.scroll_by_mul 1))
  { m with
    scroll_by_mul := 0,
    scroll := min (satAddSignedU16 m.scroll lines') (m.total_lines - m.innerH + 1) }

/-- The `![Loading...](url)` placeholder pushed for a not-yet-fetched
image in `Model::process_events`. -/
def loadingPlaceholder (id : Nat) (url : String) : WidgetSource :=
  ⟨id, 1, WidgetSourceData.Line ("![Loading...](" ++ url ++ ")") []⟩

/-- The two-row textual header line pushed for `Event::ParseHeader` (the
content concatenates the `#` marks and the text, styling dropped). -/
def headerLine (id : Nat) (tier : Nat) (text : String) : WidgetSource :=
  ⟨id, 2, WidgetSourceData.Line (String.mk (List.replicate tier '#') ++ " " ++ text) []⟩

/-- One iteration of the event loop of `Model::process_events`: the effect of
a single received event on the model (command sends and logging are outputs
with no effect on the model state; `Event::FileChanged` only issues a new
parse command). -/
def Model.process_event (m : Model) (e : Event) : Model :=
  match e with
  | Event.NewDocument d => { m with documentId := d }
  | Event.ParseDone d lastId =>
    if m.documentId.is_same_document d then
      { m with sources := m.sources.trim_last_source lastId }
    else m
  | Event.Parsed d source =>
    if m.documentId.is_same_document d then
      if m.documentId.is_first_load then { m with sources := m.sources.push source }
      else { m with sources := m.sources.update [source] }
    else m
  | Event.Update d updates =>
    if m.documentId.is_same_document d then
      { m with sources := m.sources.update updates }
    else m
  | Event.ParseImage d id url _ _ =>
    if m.documentId.is_same_document d then
      match m.sources.replace id url with
      | (some img, ws') => { m with sources := ws'.update [{ img with id := id }] }
      | (none, ws') =>
        if m.documentId.is_first_load then
          { m with sources := ws'.push (loadingPlaceholder id url) }
        else
          { m with sources := ws'.update [loadingPlaceholder id url] }
    else m
  | Event.ParseHeader d id tier text =>
    if m.documentId.is_same_document d then
      if m.documentId.is_first_load then
        { m with sources := m.sources.push (headerLine id tier text) }
      else
        { m with sources := m.sources.update [headerLine id tier text] }
    else m
  | Event.FileChanged => m

/-- Store states reachable by the Store's operations under their contracts:
`push` with an id greater than every id already present (the first-load
path, where parser ids strictly increase), `update` with a non-empty list
sharing one id, `replace`, and `trim_last_source`. -/
inductive Reach : WidgetSources → Prop where
  | init : Reach ⟨[], []⟩
  | push {ws : WidgetSources} {u : WidgetSource} :
      Reach ws → (∀ v ∈ ws.sources, v.id < u.id) → Reach (ws.push u)
  | update {ws : WidgetSources} {first : WidgetSource} {rest : List WidgetSource} :
      Reach ws → (∀ v ∈ first :: rest, v.id = first.id) →
      Reach (ws.update (first :: rest))
  | rep {ws : WidgetSources} {k : Nat} {url : String} :
      Reach ws → Reach (ws.replace k url).2
  | trim {ws : WidgetSources} {lastId : Option Nat} :
      Reach ws → Reach (ws.trim_last_source lastId)

/-- Left-biased choice of optional pointers (how the scan keeps the first
recorded match: `if first.is_none() { first = ... }`). -/
def firstSome (a b : Option CursorPointer) : Option CursorPointer :=
  match a with
  | some x => some x
  | none => b

/-- A concrete store exercising the side-cache: an image for url `"u"`
(token 1) is evicted by an update, the same url is rendered again (token 2)
and evicted again, leaving two cache entries for one source key. -/
def cexCacheStore : WidgetSources :=
  ((((⟨[⟨0, 2, WidgetSourceData.Image "u" 1⟩], []⟩ : WidgetSources).update
      [⟨0, 1, WidgetSourceData.Line "x" []⟩]).update
      [⟨0, 2, WidgetSourceData.Image "u" 2⟩]).update
      [⟨0, 1, WidgetSourceData.Line "x" []⟩])

/-- A concrete collection in which two different matches carry the same
cursor pointer (two `Line` entries share id 1, each with its link at extra
index 0). -/
def cexDupPointers : List WidgetSource :=
  [⟨1, 1, WidgetSourceData.Line "a" [LineExtra.Link "u" 0 1]⟩,
   ⟨1, 1, WidgetSourceData.Line "b" [LineExtra.Link "v" 0 1]⟩,
   ⟨2, 1, WidgetSourceData.Line "c" [LineExtra.Link "w" 0 1]⟩]

/-! ## Theorems -/

theorem posIdxId_take_getLast (k : Nat) :
    ∀ (L : List WidgetSource) (idx : Nat), posIdxId k L = some idx →
      (L.take (idx + 1)).getLast?.map WidgetSource.id = some k := by
  intro L
  induction L with
  | nil => intro idx h; simp [posIdxId] at h
  | cons s rest ih =>
    intro idx h
    by_cases hs : s.id = k
    · simp [posIdxId, hs] at h
      subst h
      simp [hs]
    · simp [posIdxId, hs] at h
      obtain ⟨j, hj, hidx⟩ := h
      subst hidx
      have htail := ih j hj
      cases htake : (rest.take (j + 1)) with
      | nil => rw [htake] at htail; simp at htail
      | cons b t =>
        rw [htake] at htail
        simp only [List.take_succ_cons, htake, List.getLast?_cons_cons]
        exact htail

/-- **C6** Trim idempotence: for every store state and every argument `x`,
calling `trim_last_source x` twice in a row yields exactly the same live
sequence of render-units as calling it once. -/
theorem trim_last_source_idempotent (ws : WidgetSources) (x : Option Nat) :
    ((ws.trim_last_source x).trim_last_source x).sources = (ws.trim_last_source x).sources := by
  cases x with
  | none => rfl
  | some k =>
    by_cases h1 : ws.sources.getLast?.map WidgetSource.id = some k
    · simp [WidgetSources.trim_last_source, h1]
    · cases hpos : posIdxId k ws.sources with
      | none => simp [WidgetSources.trim_last_source, h1, hpos]
      | some idx =>
        have h2 := posIdxId_take_getLast k ws.sources idx hpos
        simp [WidgetSources.trim_last_source, h1, hpos, h2]

theorem get_y_list_absent (k : Nat) :
    ∀ (L : List WidgetSource), (∀ s ∈ L, s.id ≠ k) →
      WidgetSources.get_y_list k L = sumHeights L := by
  intro L
  induction L with
  | nil => intro _; rfl
  | cons s rest ih =>
    intro h
    have hs : s.id ≠ k := h s (by simp)
    have hrest : ∀ u ∈ rest, u.id ≠ k := fun u hu => h u (by simp [hu])
    simp [WidgetSources.get_y_list, hs, ih hrest, sumHeights]

/-- **C10** Row offset of an absent id: for every store and every id that
does not occur in the live collection, `get_y id` returns the sum of the
heights of all entries, i.e. the total rendered height.  The range
hypothesis keeps the `Nat` embedding exact with the Rust `i16`
accumulator. -/
theorem get_y_absent_total (ws : WidgetSources) (k : Nat)
    (habs : ∀ s ∈ ws.sources, s.id ≠ k)
    (_hrange : sumHeights ws.sources ≤ 32767) :
    ws.get_y k = sumHeights ws.sources :=
  get_y_list_absent k ws.sources habs

/-- Witness for the row-offset theorem at a concrete store. -/
theorem get_y_absent_total_witness :
    (⟨[⟨1, 2, WidgetSourceData.Header "one" 1⟩, ⟨2, 3, WidgetSourceData.Line "line" []⟩], []⟩ :
      WidgetSources).get_y 7 = 5 :=
  get_y_absent_total _ 7 (by decide) (by decide)

/-- **C1** Staleness gating: for every model state and every incoming gated
event (`ParseDone`, `Parsed`, `Update`, `ParseImage`, `ParseHeader`) whose
generation is not the coordinator's current generation, applying that event
in `process_events` leaves the model — in particular the Store's sequence of
render-units — unchanged. -/
theorem staleness_gating (m : Model) (e : Event) (d : DocumentId)
    (hg : eventGatedDoc e = some d)
    (hstale : m.documentId.is_same_document d = false) :
    m.process_event e = m := by
  cases e with
  | NewDocument d0 => simp [eventGatedDoc] at hg
  | FileChanged => simp [eventGatedDoc] at hg
  | ParseDone d0 lastId =>
    simp [eventGatedDoc] at hg
    subst hg
    simp [Model.process_event, hstale]
  | Parsed d0 source =>
    simp [eventGatedDoc] at hg
    subst hg
    simp [Model.process_event, hstale]
  | Update d0 updates =>
    simp [eventGatedDoc] at hg
    subst hg
    simp [Model.process_event, hstale]
  | ParseImage d0 id url text title =>
    simp [eventGatedDoc] at hg
    subst hg
    simp [Model.process_event, hstale]
  | ParseHeader d0 id tier text =>
    simp [eventGatedDoc] at hg
    subst hg
    simp [Model.process_event, hstale]

/-- Witness for the staleness gating theorem: a stale `Update` event leaves
a concrete model unchanged. -/
theorem staleness_gating_witness :
    Model.process_event ⟨0, 0, ⟨[], []⟩, 1, ⟨1, 0⟩⟩
      (Event.Update ⟨2, 0⟩ [⟨0, 1, WidgetSourceData.Header "x" 1⟩]) =
      ⟨0, 0, ⟨[], []⟩, 1, ⟨1, 0⟩⟩ :=
  staleness_gating _ _ ⟨2, 0⟩ rfl (by decide)

theorem takeRun_all_append (k : Nat) (post : List WidgetSource) :
    ∀ rs : List WidgetSource, (∀ u ∈ rs, u.id = k) →
      takeRun k (rs ++ post) = rs ++ takeRun k post := by
  intro rs
  induction rs with
  | nil => intro _; simp
  | cons s t ih =>
    intro h
    have hs : s.id = k := h s (by simp)
    have ih' := ih (fun u hu => h u (by simp [hu]))
    simp [takeRun, hs, ih']

theorem dropRun_all_append (k : Nat) (post : List WidgetSource) :
    ∀ rs : List WidgetSource, (∀ u ∈ rs, u.id = k) →
      dropRun k (rs ++ post) = dropRun k post := by
  intro rs
  induction rs with
  | nil => intro _; simp
  | cons s t ih =>
    intro h
    have hs : s.id = k := h s (by simp)
    have ih' := ih (fun u hu => h u (by simp [hu]))
    simp [dropRun, hs, ih']

theorem takeRun_head_ne (k : Nat) (post : List WidgetSource)
    (h : ∀ x, post.head? = some x → x.id ≠ k) : takeRun k post = [] := by
  cases post with
  | nil => rfl
  | cons p t => simp [takeRun, h p rfl]

theorem dropRun_head_ne (k : Nat) (post : List WidgetSource)
    (h : ∀ x, post.head? = some x → x.id ≠ k) : dropRun k post = post := by
  cases post with
  | nil => rfl
  | cons p t => simp [dropRun, h p rfl]

theorem splitRun_decomp (k : Nat) :
    ∀ (pre run post : List WidgetSource),
      (∀ u ∈ pre, u.id ≠ k) → (∀ u ∈ run, u.id = k) → run ≠ [] →
      (∀ x, post.head? = some x → x.id ≠ k) →
      splitRun k (pre ++ (run ++ post)) = some (pre, run, post) := by
  intro pre
  induction pre with
  | nil =>
    intro run post _hpre hrun hne hpost
    cases run with
    | nil => exact absurd rfl hne
    | cons r rs =>
      have hr : r.id = k := hrun r (by simp)
      have hrs : ∀ u ∈ rs, u.id = k := fun u hu => hrun u (by simp [hu])
      have ht := takeRun_all_append k post rs hrs
      have hd := dropRun_all_append k post rs hrs
      have ht0 := takeRun_head_ne k post hpost
      have hd0 := dropRun_head_ne k post hpost
      simp [splitRun, hr, ht, hd, ht0, hd0]
  | cons p pt ih =>
    intro run post hpre hrun hne hpost
    have hp : p.id ≠ k := hpre p (by simp)
    have ih' := ih run post (fun u hu => hpre u (by simp [hu])) hrun hne hpost
    simp [splitRun, hp, ih']

theorem splitRun_absent (k : Nat) :
    ∀ L : List WidgetSource, (∀ u ∈ L, u.id ≠ k) → splitRun k L = none := by
  intro L
  induction L with
  | nil => intro _; rfl
  | cons s rest ih =>
    intro h
    simp [splitRun, h s (by simp), ih (fun u hu => h u (by simp [hu]))]

theorem update_run_eq (ws : WidgetSources) (first : WidgetSource)
    (rest pre run post : List WidgetSource)
    (hws : ws.sources = pre ++ run ++ post)
    (hpre : ∀ u ∈ pre, u.id ≠ first.id) (hrun : ∀ u ∈ run, u.id = first.id)
    (hne : run ≠ []) (hpost : ∀ x, post.head? = some x → x.id ≠ first.id) :
    ws.update (first :: rest) =
      ⟨pre ++ (first :: rest) ++ post, ws.updated_images ++ run.filterMap imgOf⟩ := by
  obtain ⟨src, cache⟩ := ws
  simp only at hws
  subst hws
  have hsplit := splitRun_decomp first.id pre run post hpre hrun hne hpost
  simp [WidgetSources.update, hsplit]

theorem update_append_eq (ws : WidgetSources) (first : WidgetSource)
    (rest : List WidgetSource) (last : WidgetSource)
    (habs : ∀ u ∈ ws.sources, u.id ≠ first.id)
    (hlast : ws.sources.getLast? = some last) (hlt : last.id < first.id) :
    ws.update (first :: rest) = { ws with sources := ws.sources ++ (first :: rest) } := by
  simp [WidgetSources.update, splitRun_absent first.id ws.sources habs, hlast, hlt]

theorem update_noop_eq (ws : WidgetSources) (first : WidgetSource)
    (rest : List WidgetSource)
    (habs : ∀ u ∈ ws.sources, u.id ≠ first.id)
    (hnotpast : ∀ last, ws.sources.getLast? = some last → first.id ≤ last.id) :
    ws.update (first :: rest) = ws := by
  simp only [WidgetSources.update, splitRun_absent first.id ws.sources habs]
  cases hlast : ws.sources.getLast? with
  | none => rfl
  | some last =>
    have := hnotpast last hlast
    simp [Nat.not_lt.mpr this]

/-- **C2** (amended) Id-run replacement: `update` with a non-empty list of
units all tagged `k` replaces exactly the (first maximal) contiguous run of
entries with id `k`, preserving all surrounding entries and their order;
when no entry has id `k` and the collection is non-empty with its last id
smaller than `k`, the units are appended; otherwise — including on an empty
collection — the store is left unchanged. -/
theorem update_id_run_replacement :
    (∀ (ws : WidgetSources) (first : WidgetSource) (rest pre run post : List WidgetSource),
      ws.sources = pre ++ run ++ post →
      (∀ u ∈ first :: rest, u.id = first.id) →
      (∀ u ∈ pre, u.id ≠ first.id) → (∀ u ∈ run, u.id = first.id) → run ≠ [] →
      (∀ x, post.head? = some x → x.id ≠ first.id) →
      (ws.update (first :: rest)).sources = pre ++ (first :: rest) ++ post)
    ∧ (∀ (ws : WidgetSources) (first : WidgetSource) (rest : List WidgetSource)
        (last : WidgetSource),
      (∀ u ∈ first :: rest, u.id = first.id) →
      (∀ u ∈ ws.sources, u.id ≠ first.id) →
      ws.sources.getLast? = some last → last.id < first.id →
      (ws.update (first :: rest)).sources = ws.sources ++ (first :: rest))
    ∧ (∀ (ws : WidgetSources) (first : WidgetSource) (rest : List WidgetSource),
      (∀ u ∈ first :: rest, u.id = first.id) →
      (∀ u ∈ ws.sources, u.id ≠ first.id) →
      (∀ last, ws.sources.getLast? = some last → first.id ≤ last.id) →
      ws.update (first :: rest) = ws) := by
  refine ⟨?_, ?_, ?_⟩
  · intro ws first rest pre run post hws _ hpre hrun hne hpost
    rw [update_run_eq ws first rest pre run post hws hpre hrun hne hpost]
  · intro ws first rest last _ habs hlast hlt
    rw [update_append_eq ws first rest last habs hlast hlt]
  · intro ws first rest _ habs hnotpast
    exact update_noop_eq ws first rest habs hnotpast

/-- Witness for the amended id-run replacement theorem: replacement of a
middle run, append past the tail, and the empty-store no-op, each at a
concrete store. -/
theorem update_id_run_replacement_witness :
    (WidgetSources.update
        ⟨[⟨0, 1, WidgetSourceData.Line "p" []⟩, ⟨1, 2, WidgetSourceData.Header "h" 1⟩,
          ⟨2, 1, WidgetSourceData.Line "q" []⟩], []⟩
        [⟨1, 2, WidgetSourceData.Image "h1" 4⟩, ⟨1, 2, WidgetSourceData.Image "h2" 5⟩]).sources =
      [⟨0, 1, WidgetSourceData.Line "p" []⟩, ⟨1, 2, WidgetSourceData.Image "h1" 4⟩,
        ⟨1, 2, WidgetSourceData.Image "h2" 5⟩, ⟨2, 1, WidgetSourceData.Line "q" []⟩]
    ∧ (WidgetSources.update ⟨[⟨0, 1, WidgetSourceData.Line "p" []⟩], []⟩
        [⟨3, 1, WidgetSourceData.Line "n" []⟩]).sources =
      [⟨0, 1, WidgetSourceData.Line "p" []⟩, ⟨3, 1, WidgetSourceData.Line "n" []⟩]
    ∧ WidgetSources.update ⟨[], []⟩ [⟨7, 1, WidgetSourceData.Header "h" 1⟩] = ⟨[], []⟩ := by
  refine ⟨?_, ?_, ?_⟩
  · exact update_id_run_replacement.1 _ _ _
      [⟨0, 1, WidgetSourceData.Line "p" []⟩] [⟨1, 2, WidgetSourceData.Header "h" 1⟩]
      [⟨2, 1, WidgetSourceData.Line "q" []⟩] rfl (by decide) (by decide) (by decide)
      (by decide) (by decide)
  · exact update_id_run_replacement.2.1 _ _ _ ⟨0, 1, WidgetSourceData.Line "p" []⟩
      (by decide) (by decide) (by decide) (by decide)
  · exact update_id_run_replacement.2.2 _ _ _ (by decide) (by decide) (by decide)

/-- Counterexample to C2 as stated: on the empty store every existing id is
(vacuously) smaller than 7, yet `update` does not append — it leaves the
store unchanged (the code requires a non-empty store for the append
branch). -/
theorem update_empty_append_counterexample :
    (∀ u ∈ (⟨[], []⟩ : WidgetSources).sources, u.id < 7) ∧
    (WidgetSources.update ⟨[], []⟩ [⟨7, 1, WidgetSourceData.Header "h" 1⟩]).sources ≠
      (⟨[], []⟩ : WidgetSources).sources ++ [⟨7, 1, WidgetSourceData.Header "h" 1⟩] := by
  constructor
  · intro u hu; simp at hu
  · decide

theorem replaceAux_found (k : Nat) (url : String) (s : WidgetSource)
    (post : List WidgetSource) (hs : k ≤ s.id ∧ imageUrl s = some url) :
    ∀ pre : List WidgetSource,
      (∀ t ∈ pre, ¬(k ≤ t.id ∧ imageUrl t = some url)) →
      replaceAux k url (pre ++ s :: post) =
        some (s, pre ++ replacingPlaceholder s.id url :: post) := by
  intro pre
  induction pre with
  | nil => intro _; simp [replaceAux, hs]
  | cons t pt ih =>
    intro h
    have ht : ¬(k ≤ t.id ∧ imageUrl t = some url) := h t (by simp)
    have ih' := ih (fun x hx => h x (by simp [hx]))
    simp [replaceAux, ht, ih']

theorem replaceAux_absent (k : Nat) (url : String) :
    ∀ L : List WidgetSource,
      (∀ t ∈ L, ¬(k ≤ t.id ∧ imageUrl t = some url)) →
      replaceAux k url L = none := by
  intro L
  induction L with
  | nil => intro _; rfl
  | cons t pt ih =>
    intro h
    simp [replaceAux, h t (by simp), ih (fun x hx => h x (by simp [hx]))]

theorem cacheExtract_found (url : String) (c : Nat × String × Nat)
    (cpost : List (Nat × String × Nat)) (hc : c.2.1 = url) :
    ∀ cpre : List (Nat × String × Nat), (∀ x ∈ cpre, x.2.1 ≠ url) →
      cacheExtract url (cpre ++ c :: cpost) = some (c, cpre ++ cpost) := by
  intro cpre
  induction cpre with
  | nil => intro _; simp [cacheExtract, hc]
  | cons x xt ih =>
    intro h
    have hx : x.2.1 ≠ url := h x (by simp)
    have ih' := ih (fun y hy => h y (by simp [hy]))
    simp [cacheExtract, hx, ih']

theorem cacheExtract_absent (url : String) :
    ∀ L : List (Nat × String × Nat), (∀ x ∈ L, x.2.1 ≠ url) →
      cacheExtract url L = none := by
  intro L
  induction L with
  | nil => intro _; rfl
  | cons x xt ih =>
    intro h
    simp [cacheExtract, h x (by simp), ih (fun y hy => h y (by simp [hy]))]

/-- **C4** Replace/dedup contract: `replace(id_floor, source_key)` replaces
the first live `Image` entry at or past the floor whose source key matches
by a one-row placeholder with the same id and returns the removed unit;
failing that, removes and returns the first matching side-cache entry;
failing both, returns none and leaves the store unchanged.  (The first
hypothesis of the live case — no earlier entry is a matching image at or
past the floor — is the code's scan condition; under the store's
non-decreasing id invariant it coincides with the claim's "first entry with
id ≥ id_floor" phrasing.) -/
theorem replace_dedup_contract :
    (∀ (ws : WidgetSources) (k : Nat) (url : String) (s : WidgetSource)
        (pre post : List WidgetSource),
      ws.sources = pre ++ s :: post →
      (∀ t ∈ pre, ¬(k ≤ t.id ∧ imageUrl t = some url)) →
      k ≤ s.id → imageUrl s = some url →
      ws.replace k url =
        (some s, ⟨pre ++ replacingPlaceholder s.id url :: post, ws.updated_images⟩))
    ∧ (∀ (ws : WidgetSources) (k : Nat) (url : String) (h p : Nat)
        (cpre cpost : List (Nat × String × Nat)),
      (∀ t ∈ ws.sources, ¬(k ≤ t.id ∧ imageUrl t = some url)) →
      ws.updated_images = cpre ++ (h, url, p) :: cpost →
      (∀ x ∈ cpre, x.2.1 ≠ url) →
      ws.replace k url =
        (some ⟨0, h, WidgetSourceData.Image url p⟩, ⟨ws.sources, cpre ++ cpost⟩))
    ∧ (∀ (ws : WidgetSources) (k : Nat) (url : String),
      (∀ t ∈ ws.sources, ¬(k ≤ t.id ∧ imageUrl t = some url)) →
      (∀ x ∈ ws.updated_images, x.2.1 ≠ url) →
      ws.replace k url = (none, ws)) := by
  refine ⟨?_, ?_, ?_⟩
  · intro ws k url s pre post hws hpre hks hurl
    obtain ⟨src, cache⟩ := ws
    simp only at hws
    subst hws
    simp [WidgetSources.replace, replaceAux_found k url s post ⟨hks, hurl⟩ pre hpre]
  · intro ws k url h p cpre cpost habs hcache hcpre
    obtain ⟨src, cache⟩ := ws
    simp only at habs hcache
    subst hcache
    simp [WidgetSources.replace, replaceAux_absent k url src habs,
      cacheExtract_found url (h, url, p) cpost rfl cpre hcpre]
  · intro ws k url habs hcabs
    simp [WidgetSources.replace, replaceAux_absent k url ws.sources habs,
      cacheExtract_absent url ws.updated_images hcabs]

/-- Witness for the replace/dedup contract: live in-place replacement,
side-cache fallback, and the no-op case, each at a concrete store. -/
theorem replace_dedup_contract_witness :
    WidgetSources.replace
        ⟨[⟨0, 1, WidgetSourceData.Line "t" []⟩, ⟨3, 4, WidgetSourceData.Image "u" 9⟩], []⟩ 2 "u" =
      (some ⟨3, 4, WidgetSourceData.Image "u" 9⟩,
        ⟨[⟨0, 1, WidgetSourceData.Line "t" []⟩, replacingPlaceholder 3 "u"], []⟩)
    ∧ WidgetSources.replace ⟨[], [(5, "v", 2), (4, "u", 8)]⟩ 0 "u" =
      (some ⟨0, 4, WidgetSourceData.Image "u" 8⟩, ⟨[], [(5, "v", 2)]⟩)
    ∧ WidgetSources.replace ⟨[⟨0, 1, WidgetSourceData.Line "t" []⟩], [(5, "v", 2)]⟩ 0 "u" =
      (none, ⟨[⟨0, 1, WidgetSourceData.Line "t" []⟩], [(5, "v", 2)]⟩) := by
  refine ⟨?_, ?_, ?_⟩
  · exact replace_dedup_contract.1 _ 2 "u" ⟨3, 4, WidgetSourceData.Image "u" 9⟩
      [⟨0, 1, WidgetSourceData.Line "t" []⟩] [] rfl (by decide) (by decide) (by decide)
  · exact replace_dedup_contract.2.1 _ 0 "u" 4 8 [(5, "v", 2)] [] (by decide) rfl (by decide)
  · exact replace_dedup_contract.2.2 _ 0 "u" (by decide) (by decide)

/-- Counterexample to C5 as stated: two evictions of source key `"u"` leave
the side-cache ordered oldest-first (token 1 evicted before token 2), and
the `replace` fallback returns the least recently evicted entry (token 1),
not the most recently evicted one (token 2). -/
theorem side_cache_recency_counterexample :
    cexCacheStore.updated_images = [(2, "u", 1), (2, "u", 2)]
    ∧ (cexCacheStore.replace 0 "u").1 = some ⟨0, 2, WidgetSourceData.Image "u" 1⟩
    ∧ (cexCacheStore.replace 0 "u").1 ≠ some ⟨0, 2, WidgetSourceData.Image "u" 2⟩ := by
  refine ⟨by decide, by decide, by decide⟩

/-- **C5** (amended) Side-cache order: every `Image` payload removed from
the live collection by `update` is appended to the side-cache keyed by its
source key, in eviction order — oldest first; when several cached entries
share a source key, the `replace` fallback removes and returns the least
recently evicted one (the first match in the cache list). -/
theorem side_cache_capture_fifo :
    (∀ (ws : WidgetSources) (first : WidgetSource) (rest pre run post : List WidgetSource),
      ws.sources = pre ++ run ++ post →
      (∀ u ∈ pre, u.id ≠ first.id) → (∀ u ∈ run, u.id = first.id) → run ≠ [] →
      (∀ x, post.head? = some x → x.id ≠ first.id) →
      (ws.update (first :: rest)).updated_images =
        ws.updated_images ++ run.filterMap imgOf)
    ∧ (∀ (ws : WidgetSources) (k : Nat) (url : String) (h p : Nat)
        (cpre cpost : List (Nat × String × Nat)),
      (∀ t ∈ ws.sources, ¬(k ≤ t.id ∧ imageUrl t = some url)) →
      ws.updated_images = cpre ++ (h, url, p) :: cpost →
      (∀ x ∈ cpre, x.2.1 ≠ url) →
      (ws.replace k url).1 = some ⟨0, h, WidgetSourceData.Image url p⟩
        ∧ (ws.replace k url).2.updated_images = cpre ++ cpost) := by
  constructor
  · intro ws first rest pre run post hws hpre hrun hne hpost
    rw [update_run_eq ws first rest pre run post hws hpre hrun hne hpost]
  · intro ws k url h p cpre cpost habs hcache hcpre
    obtain ⟨src, cache⟩ := ws
    simp only at habs hcache
    subst hcache
    constructor
    · simp [WidgetSources.replace, replaceAux_absent k url src habs,
        cacheExtract_found url (h, url, p) cpost rfl cpre hcpre]
    · simp [WidgetSources.replace, replaceAux_absent k url src habs,
        cacheExtract_found url (h, url, p) cpost rfl cpre hcpre]

/-- Witness for the amended side-cache theorem: capture of an evicted image
in cache order, and the fallback dequeuing the earliest matching entry. -/
theorem side_cache_capture_fifo_witness :
    (WidgetSources.update ⟨[⟨0, 2, WidgetSourceData.Image "u" 1⟩], [(9, "w", 7)]⟩
        [⟨0, 1, WidgetSourceData.Line "x" []⟩]).updated_images = [(9, "w", 7), (2, "u", 1)]
    ∧ (WidgetSources.replace ⟨[], [(2, "u", 1), (2, "u", 2)]⟩ 0 "u").1 =
        some ⟨0, 2, WidgetSourceData.Image "u" 1⟩ := by
  constructor
  · exact side_cache_capture_fifo.1 _ _ _ [] [⟨0, 2, WidgetSourceData.Image "u" 1⟩] [] rfl
      (by decide) (by decide) (by decide) (by decide)
  · exact (side_cache_capture_fifo.2 _ 0 "u" 2 1 [] [(2, "u", 2)] (by decide) rfl (by decide)).1

theorem takeRun_dropRun (k : Nat) :
    ∀ L : List WidgetSource, takeRun k L ++ dropRun k L = L := by
  intro L
  induction L with
  | nil => rfl
  | cons s rest ih =>
    by_cases hs : s.id = k
    · simp [takeRun, dropRun, hs, ih]
    · simp [takeRun, dropRun, hs]

theorem takeRun_all (k : Nat) :
    ∀ L : List WidgetSource, ∀ u ∈ takeRun k L, u.id = k := by
  intro L
  induction L with
  | nil => intro u hu; simp [takeRun] at hu
  | cons s rest ih =>
    intro u hu
    by_cases hs : s.id = k
    · simp [takeRun, hs] at hu
      rcases hu with hu | hu
      · rw [hu]; exact hs
      · exact ih u hu
    · simp [takeRun, hs] at hu

theorem splitRun_sound (k : Nat) :
    ∀ (L pre run post : List WidgetSource), splitRun k L = some (pre, run, post) →
      L = pre ++ (run ++ post) ∧ (∀ u ∈ run, u.id = k) ∧ run ≠ [] := by
  intro L
  induction L with
  | nil => intro pre run post h; simp [splitRun] at h
  | cons s rest ih =>
    intro pre run post h
    by_cases hs : s.id = k
    · simp only [splitRun, hs, if_true, Option.some.injEq, Prod.mk.injEq] at h
      obtain ⟨h1, h2, h3⟩ := h
      subst h1; subst h2; subst h3
      refine ⟨by simp [takeRun_dropRun k rest], ?_, by simp⟩
      intro u hu
      simp at hu
      rcases hu with hu | hu
      · rw [hu]; exact hs
      · exact takeRun_all k rest u hu
    · simp only [splitRun, hs, if_false] at h
      cases hsp : splitRun k rest with
      | none => rw [hsp] at h; simp at h
      | some triple =>
        obtain ⟨pre', run', post'⟩ := triple
        rw [hsp] at h
        simp only [Option.map_some', Option.some.injEq, Prod.mk.injEq] at h
        obtain ⟨hL, hall, hne⟩ := ih pre' run' post' hsp
        obtain ⟨h1, h2, h3⟩ := h
        subst h1; subst h2; subst h3
        exact ⟨by simp [hL], hall, hne⟩

theorem pairwise_const_id (k : Nat) :
    ∀ L : List WidgetSource, (∀ u ∈ L, u.id = k) →
      List.Pairwise (fun a b : WidgetSource => a.id ≤ b.id) L := by
  intro L
  induction L with
  | nil => intro _; exact List.Pairwise.nil
  | cons s rest ih =>
    intro h
    refine List.Pairwise.cons ?_ (ih (fun u hu => h u (by simp [hu])))
    intro u hu
    rw [h s (by simp), h u (by simp [hu])]

theorem getLast?_mem_self {α : Type} :
    ∀ (L : List α) (a : α), L.getLast? = some a → a ∈ L := by
  intro L
  induction L with
  | nil => intro a h; simp at h
  | cons s rest ih =>
    intro a h
    cases rest with
    | nil => simp at h; simp [h]
    | cons b t =>
      rw [List.getLast?_cons_cons] at h
      exact List.mem_cons_of_mem s (ih a h)

theorem sorted_getLast_bound :
    ∀ (L : List WidgetSource) (last : WidgetSource),
      List.Pairwise (fun a b : WidgetSource => a.id ≤ b.id) L →
      L.getLast? = some last → ∀ x ∈ L, x.id ≤ last.id := by
  intro L
  induction L with
  | nil => intro last _ h; simp at h
  | cons s rest ih =>
    intro last hsort hlast x hx
    cases rest with
    | nil =>
      simp at hlast
      simp at hx
      subst hlast; subst hx
      exact Nat.le_refl _
    | cons b t =>
      rw [List.getLast?_cons_cons] at hlast
      rcases List.mem_cons.mp hx with hx | hx
      · subst hx
        have hmem : last ∈ b :: t := getLast?_mem_self _ last hlast
        exact (List.pairwise_cons.mp hsort).1 last hmem
      · exact ih last (List.pairwise_cons.mp hsort).2 hlast x hx

theorem replaceAux_ids (k : Nat) (url : String) :
    ∀ (L : List WidgetSource) (r : WidgetSource) (L' : List WidgetSource),
      replaceAux k url L = some (r, L') →
      L'.map WidgetSource.id = L.map WidgetSource.id := by
  intro L
  induction L with
  | nil => intro r L' h; simp [replaceAux] at h
  | cons s rest ih =>
    intro r L' h
    by_cases hs : k ≤ s.id ∧ imageUrl s = some url
    · rw [replaceAux, if_pos hs] at h
      injection h with h'
      injection h' with ha hb
      subst hb
      simp [replacingPlaceholder]
    · rw [replaceAux, if_neg hs] at h
      cases hrec : replaceAux k url rest with
      | none => rw [hrec] at h; simp at h
      | some pr =>
        obtain ⟨r', rest'⟩ := pr
        rw [hrec] at h
        simp only [Option.map_some', Option.some.injEq, Prod.mk.injEq] at h
        obtain ⟨_, h2⟩ := h
        subst h2
        simp [ih r' rest' hrec]

theorem idSorted_update (ws : WidgetSources) (first : WidgetSource)
    (rest : List WidgetSource)
    (hsort : List.Pairwise (fun a b : WidgetSource => a.id ≤ b.id) ws.sources)
    (hall : ∀ u ∈ first :: rest, u.id = first.id) :
    List.Pairwise (fun a b : WidgetSource => a.id ≤ b.id)
      (ws.update (first :: rest)).sources := by
  have hupd : List.Pairwise (fun a b : WidgetSource => a.id ≤ b.id) (first :: rest) :=
    pairwise_const_id first.id _ hall
  cases hsplit : splitRun first.id ws.sources with
  | some triple =>
    obtain ⟨pre, run, post⟩ := triple
    obtain ⟨hL, hrun, hne⟩ := splitRun_sound first.id ws.sources pre run post hsplit
    obtain ⟨r0, hr0⟩ := List.exists_mem_of_ne_nil run hne
    have hgoal : (ws.update (first :: rest)).sources = pre ++ ((first :: rest) ++ post) := by
      simp [WidgetSources.update, hsplit]
    rw [hgoal]
    rw [hL] at hsort
    rw [List.pairwise_append] at hsort
    obtain ⟨hpre, hrp, hcross⟩ := hsort
    rw [List.pairwise_append] at hrp
    obtain ⟨hrun_sorted, hpost, hcross2⟩ := hrp
    have hpre_k : ∀ x ∈ pre, x.id ≤ first.id := by
      intro x hx
      have := hcross x hx r0 (by simp [hr0])
      rw [hrun r0 hr0] at this
      exact this
    have hpost_k : ∀ z ∈ post, first.id ≤ z.id := by
      intro z hz
      have := hcross2 r0 hr0 z hz
      rw [hrun r0 hr0] at this
      exact this
    rw [List.pairwise_append]
    refine ⟨hpre, ?_, ?_⟩
    · rw [List.pairwise_append]
      refine ⟨hupd, hpost, ?_⟩
      intro a ha z hz
      rw [hall a ha]
      exact hpost_k z hz
    · intro x hx b hb
      rcases List.mem_append.mp hb with hb | hb
      · rw [hall b hb]
        exact hpre_k x hx
      · exact le_trans (hpre_k x hx) (hpost_k b hb)
  | none =>
    cases hlast : ws.sources.getLast? with
    | none =>
      simp [WidgetSources.update, hsplit, hlast]
      exact hsort
    | some last =>
      by_cases hlt : last.id < first.id
      · have hgoal : (ws.update (first :: rest)).sources = ws.sources ++ (first :: rest) := by
          simp [WidgetSources.update, hsplit, hlast, hlt]
        rw [hgoal, List.pairwise_append]
        refine ⟨hsort, hupd, ?_⟩
        intro x hx b hb
        rw [hall b hb]
        exact le_trans (sorted_getLast_bound ws.sources last hsort hlast x hx) (le_of_lt hlt)
      · have hgoal : ws.update (first :: rest) = ws := by
          simp [WidgetSources.update, hsplit, hlast, hlt]
        rw [hgoal]
        exact hsort

theorem idSorted_replace (ws : WidgetSources) (k : Nat) (url : String)
    (hsort : List.Pairwise (fun a b : WidgetSource => a.id ≤ b.id) ws.sources) :
    List.Pairwise (fun a b : WidgetSource => a.id ≤ b.id) (ws.replace k url).2.sources := by
  cases hrep : replaceAux k url ws.sources with
  | some pr =>
    obtain ⟨r, sources'⟩ := pr
    have hids := replaceAux_ids k url ws.sources r sources' hrep
    have hgoal : (ws.replace k url).2.sources = sources' := by
      simp [WidgetSources.replace, hrep]
    rw [hgoal]
    have h1 : List.Pairwise (· ≤ ·) (ws.sources.map WidgetSource.id) :=
      (List.pairwise_map).mpr hsort
    rw [← hids] at h1
    exact (List.pairwise_map).mp h1
  | none =>
    cases hc : cacheExtract url ws.updated_images with
    | some pr =>
      have hgoal : (ws.replace k url).2.sources = ws.sources := by
        simp [WidgetSources.replace, hrep, hc]
      rw [hgoal]; exact hsort
    | none =>
      have hgoal : (ws.replace k url).2.sources = ws.sources := by
        simp [WidgetSources.replace, hrep, hc]
      rw [hgoal]; exact hsort

theorem idSorted_trim (ws : WidgetSources) (lastId : Option Nat)
    (hsort : List.Pairwise (fun a b : WidgetSource => a.id ≤ b.id) ws.sources) :
    List.Pairwise (fun a b : WidgetSource => a.id ≤ b.id)
      (ws.trim_last_source lastId).sources := by
  cases lastId with
  | none => exact hsort
  | some k =>
    by_cases h1 : ws.sources.getLast?.map WidgetSource.id = some k
    · simp [WidgetSources.trim_last_source, h1]
      exact hsort
    · cases hpos : posIdxId k ws.sources with
      | none =>
        simp [WidgetSources.trim_last_source, h1, hpos]
        exact hsort
      | some idx =>
        have hgoal : (ws.trim_last_source (some k)).sources = ws.sources.take (idx + 1) := by
          simp [WidgetSources.trim_last_source, h1, hpos]
        rw [hgoal]
        exact List.Pairwise.sublist (List.take_sublist (idx + 1) ws.sources) hsort

/-- **C3** (amended) Non-decreasing id order invariant: in every store state
reachable by the Store's operations under their contracts — `push` with an
id greater than every id already present (the first-load path, where
parser-assigned ids strictly increase), `update` with a non-empty
single-id list, `replace`, and `trim_last_source` — the unit ids of the
live collection appear in non-decreasing order. -/
theorem nondecreasing_id_invariant (ws : WidgetSources) (h : Reach ws) :
    List.Pairwise (· ≤ ·) (ws.sources.map WidgetSource.id) := by
  rw [List.pairwise_map]
  induction h with
  | init => exact List.Pairwise.nil
  | push hre hgt ih =>
    simp only [WidgetSources.push]
    rw [List.pairwise_append]
    refine ⟨ih, List.pairwise_singleton _ _, ?_⟩
    intro x hx b hb
    simp at hb
    subst hb
    exact le_of_lt (hgt x hx)
  | update hre hall ih => exact idSorted_update _ _ _ ih hall
  | rep hre ih => exact idSorted_replace _ _ _ ih
  | trim hre ih => exact idSorted_trim _ _ ih

/-- Witness for the amended invariant theorem at a concrete reachable
store: two in-order pushes followed by an update. -/
theorem nondecreasing_id_invariant_witness :
    List.Pairwise (· ≤ ·)
      ((((⟨[], []⟩ : WidgetSources).push ⟨1, 1, WidgetSourceData.Header "a" 1⟩).push
          ⟨2, 1, WidgetSourceData.Line "b" []⟩).sources.map WidgetSource.id) :=
  nondecreasing_id_invariant _
    (Reach.push (Reach.push Reach.init (by decide)) (by decide))

/-- Counterexample to C3 as stated: under the claim's push precondition —
the pushed id is merely not already present — the store `[id 3, id 1]` is
reachable by two pushes from the empty store, and its id list `[3, 1]` is
not in non-decreasing order. -/
theorem nondecreasing_id_counterexample :
    (∀ u ∈ (⟨[], []⟩ : WidgetSources).sources, u.id ≠ 3)
    ∧ (∀ u ∈ ((⟨[], []⟩ : WidgetSources).push ⟨3, 1, WidgetSourceData.Header "a" 1⟩).sources,
        u.id ≠ 1)
    ∧ (((⟨[], []⟩ : WidgetSources).push ⟨3, 1, WidgetSourceData.Header "a" 1⟩).push
        ⟨1, 1, WidgetSourceData.Header "b" 1⟩).sources.map WidgetSource.id = [3, 1]
    ∧ ¬ List.Pairwise (· ≤ ·) ([3, 1] : List Nat) := by
  refine ⟨by decide, by decide, by decide, by decide⟩

theorem scroll_by_sources_eq (m : Model) (d : Int) :
    (m.scroll_by d).sources = m.sources ∧ (m.scroll_by d).innerH = m.innerH := by
  constructor <;> rfl

theorem scroll_by_le_bound (m : Model) (d : Int) :
    (m.scroll_by d).scroll ≤ m.total_lines - m.innerH + 1 :=
  min_le_right _ _

/-- **C9** Viewport clamp: for every model state and every non-empty
sequence of `scroll_by` calls with arbitrary deltas (including values far
outside the `i16` range), the resulting scroll value stays within
`[0, total_rows - visible_rows + 1]`, where `total_rows` is the sum of all
unit heights and `visible_rows` the inner screen height (subtraction
truncated at zero, as computed by the saturating Rust code).  The range
hypotheses keep the `Nat` embedding exact with the `u16` arithmetic of
`Model::scroll_by`. -/
theorem viewport_clamp (m : Model) (ds : List Int) (hne : ds ≠ [])
    (htotal : m.total_lines ≤ 65535) (hinner : 1 ≤ m.innerH) :
    (ds.foldl Model.scroll_by m).scroll ≤ m.total_lines - m.innerH + 1 := by
  induction ds generalizing m with
  | nil => exact absurd rfl hne
  | cons d rest ih =>
    cases rest with
    | nil => simpa using scroll_by_le_bound m d
    | cons d2 t =>
      have htl : (m.scroll_by d).total_lines = m.total_lines := rfl
      have hinn : (m.scroll_by d).innerH = m.innerH := rfl
      have hbound := ih (m.scroll_by d) (by simp)
        (by rw [htl]; exact htotal) (by rw [hinn]; exact hinner)
      rw [htl, hinn] at hbound
      simpa using hbound

/-- Witness for the viewport clamp theorem: two extreme scrolls on a
concrete model stay within the clamp. -/
theorem viewport_clamp_witness :
    ((([1000000, -4] : List Int).foldl Model.scroll_by
        ⟨0, 0, ⟨[⟨0, 30, WidgetSourceData.Line "x" []⟩], []⟩, 10, ⟨0, 0⟩⟩).scroll ≤
      (⟨0, 0, ⟨[⟨0, 30, WidgetSourceData.Line "x" []⟩], []⟩, 10, ⟨0, 0⟩⟩ : Model).total_lines
        - 10 + 1) :=
  viewport_clamp _ _ (by decide) (by decide) (by decide)

theorem firstSome_none (a : Option CursorPointer) : firstSome a none = a := by
  cases a <;> rfl

theorem firstSome_none_left (b : Option CursorPointer) : firstSome none b = b := rfl

theorem firstSome_assoc (a b c : Option CursorPointer) :
    firstSome (firstSome a b) c = firstSome a (firstSome b c) := by
  cases a <;> rfl

theorem firstMatch_cons (t : FindTarget) (s : WidgetSource) (L : List WidgetSource) :
    firstMatch t (s :: L) = firstSome (locate t s) (firstMatch t L) := by
  cases h : locate t s <;> simp [firstMatch, h, firstSome]

theorem firstMatch_append (t : FindTarget) :
    ∀ (A B : List WidgetSource),
      firstMatch t (A ++ B) = firstSome (firstMatch t A) (firstMatch t B) := by
  intro A B
  induction A with
  | nil => simp [firstMatch, firstSome_none_left]
  | cons s rest ih =>
    rw [List.cons_append, firstMatch_cons, firstMatch_cons, ih, firstSome_assoc]

theorem countAbove_zero (scroll : Nat) (acc : Nat) (L : List WidgetSource)
    (h : scroll + 1 ≤ acc) : countAbove scroll acc L = 0 := by
  cases L with
  | nil => rfl
  | cons s rest =>
    have : ¬(acc + s.height < scroll + 1) := by omega
    simp [countAbove, this]

theorem findFirstAux_if_firstSome (t : FindTarget) (s : WidgetSource)
    (first : Option CursorPointer) :
    (if first.isNone then locate t s else first) = firstSome first (locate t s) := by
  cases first <;> rfl

theorem findFirstAux_spec (t : FindTarget) (scroll : Nat) :
    ∀ (l : List WidgetSource) (first : Option CursorPointer) (acc : Nat),
      findFirstAux t scroll l first acc =
        (match firstMatch t (l.drop (countAbove scroll acc l)) with
         | some p => some p
         | none => firstSome first (firstMatch t (l.take (countAbove scroll acc l)))) := by
  intro l
  induction l with
  | nil =>
    intro first acc
    simp [findFirstAux, countAbove, firstMatch, firstSome_none]
  | cons s rest ih =>
    intro first acc
    by_cases hcond : acc + s.height < scroll + 1
    · have hstep : findFirstAux t scroll (s :: rest) first acc =
          findFirstAux t scroll rest (firstSome first (locate t s)) (acc + s.height) := by
        rw [findFirstAux, if_pos hcond, findFirstAux_if_firstSome]
      rw [hstep, ih]
      have hcount : countAbove scroll acc (s :: rest) =
          countAbove scroll (acc + s.height) rest + 1 := by
        rw [countAbove, if_pos hcond]
      rw [hcount]
      simp only [List.drop_succ_cons, List.take_succ_cons]
      cases hm : firstMatch t (rest.drop (countAbove scroll (acc + s.height) rest)) with
      | some p => rfl
      | none =>
        simp only
        rw [firstMatch_cons, firstSome_assoc]
    · have hacc : scroll + 1 ≤ acc + s.height := Nat.le_of_not_lt hcond
      have hcount : countAbove scroll acc (s :: rest) = 0 := by
        rw [countAbove, if_neg hcond]
      rw [hcount]
      simp only [List.drop_zero, List.take_zero]
      rw [findFirstAux, if_neg hcond]
      cases hloc : locate t s with
      | some p =>
        simp only
        rw [firstMatch_cons, hloc]
        rfl
      | none =>
        simp only
        rw [ih first (acc + s.height), countAbove_zero scroll (acc + s.height) rest hacc]
        simp only [List.drop_zero, List.take_zero]
        rw [firstMatch_cons, hloc, firstSome_none_left]

/-- **C8** First-match wrap: `find_first_cursor` returns the first target
match at or after the row corresponding to `scroll` (the first match among
the entries not lying entirely above the scroll row); when no such match
exists it falls back to the first match anywhere in the collection; and it
returns none exactly when the collection has no match at all. -/
theorem first_match_wrap (l : List WidgetSource) (t : FindTarget) (scroll : Nat) :
    find_first_cursor l t scroll = specFirstCursor t scroll l
    ∧ (find_first_cursor l t scroll = none ↔ firstMatch t l = none) := by
  have hmain : find_first_cursor l t scroll = specFirstCursor t scroll l := by
    rw [find_first_cursor, findFirstAux_spec, specFirstCursor]
    cases hm : firstMatch t (l.drop (countAbove scroll 0 l)) with
    | some p => rfl
    | none =>
      simp only [firstSome_none_left]
      have hsplit : firstMatch t l =
          firstSome (firstMatch t (l.take (countAbove scroll 0 l)))
            (firstMatch t (l.drop (countAbove scroll 0 l))) := by
        rw [← firstMatch_append, List.take_append_drop]
      rw [hsplit, hm, firstSome_none]
  refine ⟨hmain, ?_⟩
  rw [hmain, specFirstCursor]
  cases hm : firstMatch t (l.drop (countAbove scroll 0 l)) with
  | some p =>
    simp only
    constructor
    · intro h; exact absurd h (by simp)
    · intro h
      have hsplit : firstMatch t l =
          firstSome (firstMatch t (l.take (countAbove scroll 0 l)))
            (firstMatch t (l.drop (countAbove scroll 0 l))) := by
        rw [← firstMatch_append, List.take_append_drop]
      rw [h] at hsplit
      rw [hm] at hsplit
      cases hfm : firstMatch t (l.take (countAbove scroll 0 l)) <;>
        rw [hfm] at hsplit <;> simp [firstSome] at hsplit
  | none => simp only

theorem lineCursorsRev_eq (t : FindTarget) (s : WidgetSource) :
    lineCursorsRev t s = (lineCursors t s).reverse := by
  cases hd : s.data with
  | Line line extras =>
    simp [lineCursorsRev, lineCursors, hd, List.filter_reverse, List.map_reverse]
  | Image url proto => simp [lineCursorsRev, lineCursors, hd]
  | BrokenImage url desc => simp [lineCursorsRev, lineCursors, hd]
  | Header text tier => simp [lineCursorsRev, lineCursors, hd]

theorem flatCursorsRev_eq (t : FindTarget) :
    ∀ l : List WidgetSource, flatCursorsRev t l = (flatCursors t l).reverse := by
  intro l
  induction l with
  | nil => rfl
  | cons s rest ih =>
    simp [flatCursorsRev, flatCursors, ih, lineCursorsRev_eq]

theorem posIdx_get?_nodup :
    ∀ (L : List CursorPointer), L.Nodup → ∀ (i : Nat) (p : CursorPointer),
      L.get? i = some p → posIdx p L = some i := by
  intro L
  induction L with
  | nil => intro _ i p h; simp at h
  | cons a tl ih =>
    intro hnd i p h
    cases i with
    | zero =>
      simp at h
      subst h
      simp [posIdx]
    | succ j =>
      simp only [List.get?_cons_succ] at h
      have hmem : p ∈ tl := List.get?_mem h
      have hne : a ≠ p := by
        intro he
        subst he
        exact (List.nodup_cons.mp hnd).1 hmem
      simp [posIdx, hne, ih (List.nodup_cons.mp hnd).2 j p h]

theorem posIdx_some_lt (p : CursorPointer) :
    ∀ (L : List CursorPointer) (i : Nat), posIdx p L = some i → i < L.length := by
  intro L
  induction L with
  | nil => intro i h; simp [posIdx] at h
  | cons a tl ih =>
    intro i h
    by_cases ha : a = p
    · simp [posIdx, ha] at h
      subst h
      simp
    · simp only [posIdx, ha, if_false] at h
      cases hrec : posIdx p tl with
      | none => rw [hrec] at h; simp at h
      | some j =>
        rw [hrec] at h
        simp at h
        subst h
        have := ih j hrec
        simp
        omega

theorem cyclicStep_get (L : List CursorPointer) (hnd : L.Nodup) (i : Nat)
    (p : CursorPointer) (hget : L.get? i = some p) :
    cyclicStep L p 1 = L.get? ((i + 1) % L.length) := by
  have hlt : i < L.length := List.get?_eq_some.mp hget |>.fst
  have hpos := posIdx_get?_nodup L hnd i p hget
  have htot : i + 1 + (L.length - (i + 1)) = L.length := by omega
  rw [cyclicStep, hpos]
  simp only [htot]
  by_cases hidx : (i + 1) % L.length = i
  · rw [if_pos hidx, hidx, hget]
  · rw [if_neg hidx]

theorem stepN_rot (l : List WidgetSource) (t : FindTarget)
    (hnd : (flatCursors t l).Nodup) :
    ∀ (n i : Nat) (p : CursorPointer), (flatCursors t l).get? i = some p →
      stepN l FindMode.Next t n p =
        (flatCursors t l).get? ((i + n) % (flatCursors t l).length) := by
  intro n
  induction n with
  | zero =>
    intro i p hget
    have hlt : i < (flatCursors t l).length := List.get?_eq_some.mp hget |>.fst
    rw [stepN, Nat.add_zero, Nat.mod_eq_of_lt hlt, hget]
  | succ n ih =>
    intro i p hget
    have hlt : i < (flatCursors t l).length := List.get?_eq_some.mp hget |>.fst
    have hlen : 0 < (flatCursors t l).length := Nat.lt_of_le_of_lt (Nat.zero_le i) hlt
    have hstep : find_next_cursor l p FindMode.Next t 1 =
        (flatCursors t l).get? ((i + 1) % (flatCursors t l).length) := by
      rw [find_next_cursor]
      exact cyclicStep_get (flatCursors t l) hnd i p hget
    have hlt2 : (i + 1) % (flatCursors t l).length < (flatCursors t l).length :=
      Nat.mod_lt _ hlen
    obtain ⟨q, hq⟩ : ∃ q, (flatCursors t l).get? ((i + 1) % (flatCursors t l).length) = some q := by
      cases hg : (flatCursors t l).get? ((i + 1) % (flatCursors t l).length) with
      | none => rw [List.get?_eq_none] at hg; omega
      | some q => exact ⟨q, rfl⟩
    rw [stepN, hstep, hq]
    show stepN l FindMode.Next t n q = _
    rw [ih ((i + 1) % (flatCursors t l).length) q hq]
    congr 1
    rw [Nat.mod_add_mod]
    congr 1
    omega

theorem cyclicStep_prev_inverse (L : List CursorPointer) (hnd : L.Nodup)
    (i : Nat) (p q : CursorPointer) (hget : L.get? i = some p)
    (hq : L.get? ((i + 1) % L.length) = some q) :
    cyclicStep L.reverse q 1 = some p := by
  have hlt : i < L.length := List.get?_eq_some.mp hget |>.fst
  have hlen : 0 < L.length := by omega
  have hjlt : (i + 1) % L.length < L.length := Nat.mod_lt _ hlen
  have hndrev : L.reverse.Nodup := List.nodup_reverse.mpr hnd
  have hqrev : L.reverse.get? (L.length - 1 - (i + 1) % L.length) = some q := by
    rw [List.get?_reverse (show L.length - 1 - (i + 1) % L.length < L.length by omega)]
    have harith : L.length - 1 - (L.length - 1 - (i + 1) % L.length) = (i + 1) % L.length := by
      omega
    rw [harith]
    exact hq
  have hstep := cyclicStep_get L.reverse hndrev (L.length - 1 - (i + 1) % L.length) q hqrev
  rw [List.length_reverse] at hstep
  rw [hstep]
  by_cases hj0 : (i + 1) % L.length = 0
  · have hi : i + 1 = L.length := by
      rcases Nat.lt_or_ge (i + 1) L.length with h | h
      · rw [Nat.mod_eq_of_lt h] at hj0; omega
      · omega
    have harith : (L.length - 1 - (i + 1) % L.length + 1) % L.length = 0 := by
      rw [hj0]
      have h1 : L.length - 1 - 0 + 1 = L.length := by omega
      rw [h1, Nat.mod_self]
    rw [harith]
    rw [List.get?_reverse (show 0 < L.length from hlen)]
    have h0 : L.length - 1 - 0 = i := by omega
    rw [h0]
    exact hget
  · have hij : (i + 1) % L.length = i + 1 := by
      rcases Nat.lt_or_ge (i + 1) L.length with h | h
      · exact Nat.mod_eq_of_lt h
      · exfalso
        have he : i + 1 = L.length := by omega
        rw [he, Nat.mod_self] at hj0
        exact hj0 rfl
    have hi1 : i + 1 < L.length := by rw [← hij]; exact hjlt
    have harith : (L.length - 1 - (i + 1) % L.length + 1) % L.length = L.length - (i + 1) := by
      rw [hij]
      have h1 : L.length - 1 - (i + 1) + 1 = L.length - (i + 1) := by omega
      rw [h1]
      exact Nat.mod_eq_of_lt (by omega)
    rw [harith]
    rw [List.get?_reverse (show L.length - (i + 1) < L.length by omega)]
    have h2 : L.length - 1 - (L.length - (i + 1)) = i := by omega
    rw [h2]
    exact hget

/-- **C7** (amended) Cyclic navigation: for every collection whose matching
extras have pairwise-distinct cursor pointers (no two matches share the same
(id, index) pair) and contain the starting match, N successive single-step
`find_next_cursor` calls forward return to the starting match (N the total
number of matches), and a single backward step undoes a single forward step,
so the backward direction traverses the matches in exactly the reverse
order. -/
theorem cyclic_navigation (l : List WidgetSource) (t : FindTarget) (p : CursorPointer)
    (hnd : (flatCursors t l).Nodup) (hp : p ∈ flatCursors t l) :
    stepN l FindMode.Next t (flatCursors t l).length p = some p
    ∧ (∀ q, find_next_cursor l p FindMode.Next t 1 = some q →
        find_next_cursor l q FindMode.Prev t 1 = some p) := by
  obtain ⟨i, hget⟩ := List.mem_iff_get?.mp hp
  have hlt : i < (flatCursors t l).length := List.get?_eq_some.mp hget |>.fst
  have hlen : 0 < (flatCursors t l).length := Nat.lt_of_le_of_lt (Nat.zero_le i) hlt
  constructor
  · rw [stepN_rot l t hnd (flatCursors t l).length i p hget]
    have : (i + (flatCursors t l).length) % (flatCursors t l).length = i := by
      rw [Nat.add_mod_right]
      exact Nat.mod_eq_of_lt hlt
    rw [this, hget]
  · intro q hq
    have hstep : find_next_cursor l p FindMode.Next t 1 =
        (flatCursors t l).get? ((i + 1) % (flatCursors t l).length) := by
      rw [find_next_cursor]
      exact cyclicStep_get (flatCursors t l) hnd i p hget
    rw [hstep] at hq
    have hinv := cyclicStep_prev_inverse (flatCursors t l) hnd i p q hget hq
    rw [find_next_cursor, flatCursorsRev_eq]
    exact hinv

/-- Witness for the amended cyclic navigation theorem: two links on distinct
ids; two forward steps return to the start, and the backward step inverts
the forward step. -/
theorem cyclic_navigation_witness :
    stepN [⟨1, 1, WidgetSourceData.Line "a" [LineExtra.Link "u" 0 1]⟩,
        ⟨2, 1, WidgetSourceData.Line "b" [LineExtra.Link "v" 0 1]⟩]
      FindMode.Next FindTarget.Link 2 ⟨1, 0⟩ = some ⟨1, 0⟩ :=
  (cyclic_navigation _ FindTarget.Link ⟨1, 0⟩ (by decide) (by decide)).1

/-- Counterexample to C7 as stated: in `cexDupPointers` two matches share
the pointer (1, 0); the collection has exactly 3 matches, the pointer
(2, 0) is one of them, yet 3 successive forward steps from it land on
(1, 0), not back on (2, 0). -/
theorem cyclic_navigation_counterexample :
    (flatCursors FindTarget.Link cexDupPointers).length = 3
    ∧ (⟨2, 0⟩ : CursorPointer) ∈ flatCursors FindTarget.Link cexDupPointers
    ∧ stepN cexDupPointers FindMode.Next FindTarget.Link 3 ⟨2, 0⟩ = some ⟨1, 0⟩
    ∧ (some (⟨1, 0⟩ : CursorPointer) ≠ some (⟨2, 0⟩ : CursorPointer)) := by
  refine ⟨by decide, by decide, by decide, by decide⟩

end Mdfried
